import Mathlib

/-
Verification of the symmetry-based qubit-reduction engine used by
community/aqua/chemistry/LiH_with_qubit_tapering_and_uccsd.ipynb.

The notebook drives qiskit-aqua's Operator class: find_Z2_symmetries,
qubit_tapering, and an exact-eigensolver loop that searches the symmetry
sectors.  The sector-search loop (cell-10), the sector enumeration
(cell-6, itertools.product) and the Python list indexing are code of the
notebook itself and are embedded here directly from it.  The Pauli-algebra
engine (commutation test, GF(2) null-space symmetry finder, single-qubit
witness construction, tapering transform, label printing) lives in the
qiskit-aqua library and is modelled here from the specification's
description of those components.
-/

namespace QT

/-- Single-qubit Pauli label, the tagged enum of the data model. -/
inductive Pauli where
  | I : Pauli
  | X : Pauli
  | Y : Pauli
  | Z : Pauli
deriving DecidableEq, Fintype, Repr

/-- PauliString: an ordered sequence of single-qubit Pauli labels; entry i
is the Pauli acting on qubit i. -/
abbrev PauliString := List Pauli

/-- Bit of the X-mask of a single Pauli (Y = XZ carries both bits). -/
def Pauli.xbit : Pauli → ZMod 2
  | Pauli.I => 0
  | Pauli.X => 1
  | Pauli.Y => 1
  | Pauli.Z => 0

/-- Bit of the Z-mask of a single Pauli. -/
def Pauli.zbit : Pauli → ZMod 2
  | Pauli.I => 0
  | Pauli.X => 0
  | Pauli.Y => 1
  | Pauli.Z => 1

/-- Printable character of a single Pauli. -/
def Pauli.pchar : Pauli → Char
  | Pauli.I => 'I'
  | Pauli.X => 'X'
  | Pauli.Y => 'Y'
  | Pauli.Z => 'Z'

/-- PauliTerm: a coefficient paired with a PauliString.  Coefficients of
the LiH Hamiltonian are reals stored as Python floats; they are modelled
as exact rationals. -/
structure PauliTerm where
  coeff : ℚ
  str : PauliString
deriving DecidableEq, Repr

/-- PauliOperator: an ordered collection of PauliTerms (the paulis list of
qiskit-aqua's Operator). -/
structure PauliOperator where
  paulis : List PauliTerm
deriving DecidableEq, Repr

/-- Number of qubits, derived from the string length of the leading term,
0 for an operator with no terms (as qiskit-aqua's num_qubits property). -/
def PauliOperator.numQubits (op : PauliOperator) : ℕ :=
  match op.paulis with
  | [] => 0
  | t :: _ => t.str.length

/-- Contribution of one qubit position to the commutation count: 1 when
the two single-qubit Paulis differ and neither is the identity. -/
def diffNonI (p q : Pauli) : ℕ :=
  if p ≠ q ∧ p ≠ Pauli.I ∧ q ≠ Pauli.I then 1 else 0

/-- Number of qubit positions at which the two strings differ with neither
side the identity. -/
def countDiffNonI (s t : PauliString) : ℕ :=
  (List.zipWith diffNonI s t).sum

/-- Modelled from the spec: the Commutation Engine of qiskit-aqua (not in
the repository).  Two Pauli strings commute iff the number of positions
where they differ and neither is identity is even. -/
def commutes (s t : PauliString) : Bool :=
  countDiffNonI s t % 2 == 0

/-- Contribution of one qubit position to the symplectic inner product. -/
def sympTerm (p q : Pauli) : ZMod 2 :=
  p.xbit * q.zbit + p.zbit * q.xbit

/-- Symplectic inner product of two Pauli strings over their X/Z bit
vectors, mod 2. -/
def symp (s t : PauliString) : ZMod 2 :=
  (List.zipWith sympTerm s t).sum

/-- GF(2) vector, as a list of bits. -/
abbrev BVec := List (ZMod 2)

/-- Pointwise GF(2) vector addition. -/
def addV (u v : BVec) : BVec := List.zipWith (· + ·) u v

/-- GF(2) dot product. -/
def dotV (u v : BVec) : ZMod 2 := (List.zipWith (· * ·) u v).sum

/-- Standard basis vector of length n with a 1 in coordinate i. -/
def unitV (n i : ℕ) : BVec :=
  (List.range n).map (fun j => if j = i then 1 else 0)

/-- Image of a candidate vector under the constraint matrix: the list of
dot products with every row. -/
def image (M : List BVec) (v : BVec) : BVec :=
  M.map (fun r => dotV r v)

/-- Index of the first nonzero coordinate of a vector, if any. -/
def leadIdx : BVec → Option ℕ
  | [] => none
  | a :: r => if a ≠ 0 then some 0 else (leadIdx r).map (· + 1)

/-- Whether the stored pivot's leading coordinate is set in the
candidate's image, so that the pivot must be added to eliminate it. -/
def pivHit (lv p : BVec × BVec) : Bool :=
  match leadIdx p.1 with
  | none => false
  | some j => decide (lv.1.getD j 0 = 1)

/-- One reduction pass of Gaussian elimination: add to the candidate the
stored pivot rows whose leading coordinate is set in the candidate's
image.  Each stored pair is (image, combination). -/
def reduceAgainst : List (BVec × BVec) → BVec × BVec → BVec × BVec
  | [], lv => lv
  | p :: rest, lv =>
    if pivHit lv p then
      reduceAgainst rest (addV lv.1 p.1, addV lv.2 p.2)
    else
      reduceAgainst rest lv

/-- Modelled from the spec: incremental Gaussian elimination over GF(2)
computing a basis of the null space of the constraint matrix M (one
constraint row per Hamiltonian term); qiskit-aqua's kernel_F2 routine is
not in the repository.  Each step feeds the next standard basis vector,
reduces its image against the stored pivots, and either records a kernel
vector (image zero) or stores a new pivot.  The kernel list keeps the
step index at which each vector was produced. -/
def kerLoop (n : ℕ) (M : List BVec) :
    List ℕ → List (BVec × BVec) → List (ℕ × BVec) → List (ℕ × BVec)
  | [], _, ker => ker
  | i :: rest, piv, ker =>
    let lv := reduceAgainst piv (image M (unitV n i), unitV n i)
    if lv.1.all (fun x => decide (x = 0)) then
      kerLoop n M rest piv (ker ++ [(i, lv.2)])
    else
      kerLoop n M rest (piv ++ [lv]) ker

/-- Null-space basis (with step indices) of M inside GF(2)^n. -/
def kernelSteps (n : ℕ) (M : List BVec) : List (ℕ × BVec) :=
  kerLoop n M (List.range n) [] []

/-- Constraint row of a term: Z-mask then X-mask, so that its plain dot
product with a candidate laid out as X-part followed by Z-part is the
symplectic inner product. -/
def rowOf (t : PauliString) : BVec :=
  t.map Pauli.zbit ++ t.map Pauli.xbit

/-- Pauli with the given X and Z bits. -/
def pauliOfBits (x z : ZMod 2) : Pauli :=
  if x = 1 then (if z = 1 then Pauli.Y else Pauli.X)
  else (if z = 1 then Pauli.Z else Pauli.I)

/-- Reinterpret a length-2N bit vector (X-part then Z-part) as a Pauli
string over N qubits. -/
def pauliOfVec (N : ℕ) (v : BVec) : PauliString :=
  List.zipWith pauliOfBits (v.take N) (v.drop N)

/-- X-part followed by Z-part of a Pauli string, as a bit vector. -/
def vecOfString (g : PauliString) : BVec :=
  g.map Pauli.xbit ++ g.map Pauli.zbit

/-- A bit vector as a function on coordinates (0 beyond its length). -/
def asFun (l : BVec) : ℕ → ZMod 2 := fun j => l.getD j 0

/-- Symplectic representation of a Pauli string as a coordinate function;
the GF(2) sum of these functions represents the product of the strings
(up to phase). -/
def strFun (g : PauliString) : ℕ → ZMod 2 := asFun (vecOfString g)

/-- Modelled from the spec: the Symmetry Finder (qiskit-aqua's
find_Z2_symmetries is not in the repository).  Each term's Pauli string
gives one symplectic constraint row; the null-space basis vectors over
GF(2), reinterpreted as Pauli strings, are the symmetry generators.  An
operator with no terms or no qubits yields the empty group. -/
def find_Z2_symmetries (op : PauliOperator) : List PauliString :=
  if op.paulis = [] ∨ op.numQubits = 0 then []
  else
    (kernelSteps (2 * op.numQubits) (op.paulis.map (fun t => rowOf t.str))).map
      (fun kv => pauliOfVec op.numQubits kv.2)

/-- Modelled from the spec: Clifford Constructor qubit choice (not in the
repository).  The lowest-index qubit, not already used, at which the
generator has a non-identity Pauli; none when every non-identity position
is used (the DegenerateSymmetry error). -/
def lowestFree (g : PauliString) (used : List ℕ) : Option ℕ :=
  (((List.range g.length).filter
      (fun i => decide (g.getD i Pauli.I ≠ Pauli.I ∧ i ∉ used)))).head?

/-- Modelled from the spec: witness Pauli string over N qubits that is X
at qubit p and identity elsewhere. -/
def witnessString : ℕ → ℕ → PauliString
  | 0, _ => []
  | n + 1, 0 => Pauli.X :: List.replicate n Pauli.I
  | n + 1, p + 1 => Pauli.I :: witnessString n p

/-- Exact rational value of the double-precision coefficient
0.7071067811865475 that the notebook prints for each Clifford term
(the float closest to 1 over the square root of 2). -/
def sqrtHalfCoeff : ℚ := 0.7071067811865475

/-- Modelled from the spec: the two-term Clifford pair of a generator g
and its single-qubit witness at position p, each with coefficient
0.7071067811865475. -/
def cliffordPair (g : PauliString) (p : ℕ) : List (ℚ × PauliString) :=
  [(sqrtHalfCoeff, g), (sqrtHalfCoeff, witnessString g.length p)]

/-- Modelled from the spec: greedy assignment of mutually distinct witness
qubit positions to the generators, lowest-index unused non-identity qubit
first; none signals the DegenerateSymmetry error. -/
def assignPositions : List PauliString → List ℕ → Option (List ℕ)
  | [], _ => some []
  | g :: rest, used =>
    match lowestFree g used with
    | none => none
    | some p => (assignPositions rest (used ++ [p])).map (fun ps => p :: ps)

/-- Whether a single Pauli anticommutes with X (it is Y or Z). -/
def anticWithX (p : Pauli) : Bool :=
  decide (p = Pauli.Y ∨ p = Pauli.Z)

/-- Modelled from the spec: sign factor a term picks up during tapering;
each generator whose witness qubit anticommutes with the term's Pauli at
that position contributes the chosen sector sign. -/
def sectorFactor (s : PauliString) (sqList : List ℕ) (sector : List ℚ) : ℚ :=
  (List.zipWith
    (fun q c => if anticWithX (s.getD q Pauli.I) then c else 1)
    sqList sector).prod

/-- Remove the marked qubit positions from a Pauli string. -/
def removeIdxs (s : PauliString) (idxs : List ℕ) : PauliString :=
  ((List.range s.length).filter (fun i => decide (i ∉ idxs))).map
    (fun i => s.getD i Pauli.I)

/-- Insert a term into a term list, combining coefficients with an
existing term carrying the same string. -/
def addTermTo : List PauliTerm → PauliTerm → List PauliTerm
  | [], t => [t]
  | u :: rest, t =>
    if u.str = t.str then ⟨u.coeff + t.coeff, u.str⟩ :: rest
    else u :: addTermTo rest t

/-- Merge duplicate strings of a term list, summing coefficients. -/
def mergeTerms (ts : List PauliTerm) : List PauliTerm :=
  ts.foldl addTermTo []

/-- Drop terms whose merged coefficient is zero (the zero-magnitude
cutoff of the spec, exact in the rational model). -/
def dropZeros (ts : List PauliTerm) : List PauliTerm :=
  ts.filter (fun t => decide (t.coeff ≠ 0))

/-- Modelled from the spec: the Tapering Transform (qiskit-aqua's
Operator.qubit_tapering is not in the repository).  Per the spec's
description of the net effect of the Clifford rotations: a term picks up
the sector sign of each generator at whose witness qubit it anticommutes,
commuting positions drop as identity, the marked positions are removed
from every string, terms with identical reduced strings are merged, and
zero coefficients are dropped. -/
def taper (op : PauliOperator) (sqList : List ℕ) (sector : List ℚ) :
    PauliOperator :=
  ⟨dropZeros (mergeTerms (op.paulis.map
    (fun t => ⟨t.coeff * sectorFactor t.str sqList sector,
               removeIdxs t.str sqList⟩)))⟩

/-- One step of the sector-search loop of notebook cell-10: keep the
candidate when it is strictly below the best value so far. -/
def searchStep (acc : ℚ × ℤ) (p : ℕ × ℚ) : ℚ × ℤ :=
  if p.2 < acc.1 then (p.2, (p.1 : ℤ)) else acc

/-- Pair each list entry with its index, starting from s (the idx of the
Python for-loop over range(len(tapered_ops))). -/
def enumF (s : ℕ) : List ℚ → List (ℕ × ℚ)
  | [] => []
  | v :: r => (s, v) :: enumF (s + 1) r

/-- The sector-search loop of notebook cell-10 over the list of lowest
eigenvalues of the tapered candidates: smallest_eig_value starts at the
sentinel 99999999999999, smallest_idx at -1, and each candidate strictly
below the best so far replaces it.  The reference ground-state energy is
not an input: the loop never consults it. -/
def sectorSearch (vals : List ℚ) : ℚ × ℤ :=
  (enumF 0 vals).foldl searchStep (99999999999999, -1)

/-- Python list indexing, as used by tapered_ops[smallest_idx] in
cell-10: a negative index -m addresses element len - m. -/
def pyGet {α : Type} (l : List α) (i : ℤ) : Option α :=
  if 0 ≤ i then l[i.toNat]?
  else if (-i).toNat ≤ l.length then l[l.length - (-i).toNat]? else none

/-- The sector enumeration of notebook cell-6:
itertools.product([1, -1], repeat=k), first coordinate varying slowest,
+1 before -1. -/
def sectorList : ℕ → List (List ℚ)
  | 0 => [[]]
  | k + 1 =>
    ((sectorList k).map (fun s => (1 : ℚ) :: s)) ++
      ((sectorList k).map (fun s => (-1 : ℚ) :: s))

/-- Modelled from the spec: label printing (qiskit's Pauli.to_label is
not in the repository).  One character per qubit, most-significant qubit
first, so qubit i sits at the i-th character counting from the right. -/
def toLabel (s : PauliString) : List Char :=
  s.reverse.map Pauli.pchar

/-- The LiH generator printed as ZIZIZIZI, in internal order (qubit 0
first): Z on the odd qubits. -/
def gZIZIZIZI : PauliString :=
  [Pauli.I, Pauli.Z, Pauli.I, Pauli.Z, Pauli.I, Pauli.Z, Pauli.I, Pauli.Z]

/-- The LiH generator printed as ZZIIZZII, in internal order (qubit 0
first): Z on qubits 2, 3, 6, 7. -/
def gZZIIZZII : PauliString :=
  [Pauli.I, Pauli.I, Pauli.Z, Pauli.Z, Pauli.I, Pauli.I, Pauli.Z, Pauli.Z]

/-- Two-qubit operator with the single term X on qubit 0: its symplectic
constraint system is under-determined, so the null space is larger than
the qubit count. -/
def opXI : PauliOperator := ⟨[⟨1, [Pauli.X, Pauli.I]⟩]⟩

/-- Two-qubit operator whose terms Z-qubit0 and identity differ only at
the tapered qubit: tapering it in the minus sector cancels every term. -/
def opZIplusII : PauliOperator :=
  ⟨[⟨1, [Pauli.Z, Pauli.I]⟩, ⟨1, [Pauli.I, Pauli.I]⟩]⟩

/-- Two-qubit operator with the single term Z-Z, a well-behaved tapering
example. -/
def opZZ : PauliOperator := ⟨[⟨1, [Pauli.Z, Pauli.Z]⟩]⟩

/-- Characterization of the cell-10 fold: starting from any accumulator,
either no candidate beats it and it is returned unchanged, or the result
is the first candidate attaining the minimum, with its running index. -/
theorem searchFold_char (vals : List ℚ) : ∀ (s : ℕ) (acc : ℚ × ℤ),
    ((∀ v ∈ vals, acc.1 ≤ v) ∧ (enumF s vals).foldl searchStep acc = acc) ∨
    (∃ k, k < vals.length ∧
      (enumF s vals).foldl searchStep acc = (vals.getD k 0, ((s + k : ℕ) : ℤ)) ∧
      vals.getD k 0 < acc.1 ∧
      (∀ j, j < vals.length → vals.getD k 0 ≤ vals.getD j 0) ∧
      (∀ j, j < k → vals.getD k 0 < vals.getD j 0)) := by
  induction vals with
  | nil =>
    intro s acc
    refine Or.inl ⟨?_, rfl⟩
    intro v hv
    cases hv
  | cons v rest ih =>
    intro s acc
    have hstep : (enumF s (v :: rest)).foldl searchStep acc =
        (enumF (s + 1) rest).foldl searchStep (searchStep acc (s, v)) := rfl
    by_cases hv : v < acc.1
    · have hacc : searchStep acc (s, v) = (v, (s : ℤ)) := by
        simp [searchStep, hv]
      rcases ih (s + 1) (v, (s : ℤ)) with ⟨hall, heq⟩ | ⟨k, hk, heq, hlt, hmin, hfirst⟩
      · refine Or.inr ⟨0, by simp, ?_, ?_, ?_, ?_⟩
        · rw [hstep, hacc, heq]; simp
        · simpa using hv
        · intro j hj
          match j with
          | 0 => simp
          | j + 1 =>
            simp only [List.getD_cons_zero, List.getD_cons_succ]
            have hjl : j < rest.length := by simpa using hj
            rw [List.getD_eq_getElem rest 0 hjl]
            exact hall _ (List.getElem_mem hjl)
        · intro j hj; omega
      · refine Or.inr ⟨k + 1, by simpa using hk, ?_, ?_, ?_, ?_⟩
        · rw [hstep, hacc, heq]
          simp only [List.getD_cons_succ]
          congr 1
          omega
        · simp only [List.getD_cons_succ]
          exact hlt.trans hv
        · intro j hj
          match j with
          | 0 =>
            simp only [List.getD_cons_succ, List.getD_cons_zero]
            exact le_of_lt hlt
          | j + 1 =>
            simp only [List.getD_cons_succ]
            exact hmin j (by simpa using hj)
        · intro j hj
          match j with
          | 0 =>
            simp only [List.getD_cons_succ, List.getD_cons_zero]
            exact hlt
          | j + 1 =>
            simp only [List.getD_cons_succ]
            exact hfirst j (by omega)
    · have hacc : searchStep acc (s, v) = acc := by
        simp [searchStep, hv]
      rcases ih (s + 1) acc with ⟨hall, heq⟩ | ⟨k, hk, heq, hlt, hmin, hfirst⟩
      · refine Or.inl ⟨?_, by rw [hstep, hacc, heq]⟩
        intro w hw
        rcases List.mem_cons.mp hw with h | h
        · subst h; exact not_lt.mp hv
        · exact hall w h
      · refine Or.inr ⟨k + 1, by simpa using hk, ?_, ?_, ?_, ?_⟩
        · rw [hstep, hacc, heq]
          simp only [List.getD_cons_succ]
          congr 1
          omega
        · simpa only [List.getD_cons_succ] using hlt
        · intro j hj
          match j with
          | 0 =>
            simp only [List.getD_cons_succ, List.getD_cons_zero]
            exact le_of_lt (lt_of_lt_of_le hlt (not_lt.mp hv))
          | j + 1 =>
            simp only [List.getD_cons_succ]
            exact hmin j (by simpa using hj)
        · intro j hj
          match j with
          | 0 =>
            simp only [List.getD_cons_succ, List.getD_cons_zero]
            exact lt_of_lt_of_le hlt (not_lt.mp hv)
          | j + 1 =>
            simp only [List.getD_cons_succ]
            exact hfirst j (by omega)

/-- The sector enumeration is never empty. -/
theorem sectorList_ne_nil (m : ℕ) : sectorList m ≠ [] := by
  cases m with
  | zero => simp [sectorList]
  | succ k =>
    simp only [sectorList]
    intro h
    rcases List.append_eq_nil.mp h with ⟨h1, _⟩
    exact sectorList_ne_nil k (List.map_eq_nil_iff.mp h1)

/-- The first sector in enumeration order is the all-plus-one sector. -/
theorem sectorList_head (m : ℕ) :
    (sectorList m).head? = some (List.replicate m 1) := by
  induction m with
  | zero => rfl
  | succ k ih =>
    rcases List.exists_cons_of_ne_nil (sectorList_ne_nil k) with ⟨a, as, ha⟩
    rw [ha] at ih
    simp only [List.head?_cons] at ih
    simp [sectorList, ha, List.replicate_succ, Option.some.injEq] at ih ⊢
    exact ih

/-- Claim C9: the sector-search loop of cell-10 starts from the sentinel
99999999999999 with index -1 and compares candidates only against the
best so far, never against the reference energy; when every tapered
operator's lowest eigenvalue is at least the sentinel, smallest_idx stays
-1 and the operator reported as the match is tapered_ops[-1], the last
sector, with no error or distinct outcome signalled. -/
theorem sector_search_sentinel_keeps_minus_one {α : Type} (vals : List ℚ)
    (ops : List α) (hne : vals ≠ []) (hlen : ops.length = vals.length)
    (hsent : ∀ v ∈ vals, (99999999999999 : ℚ) ≤ v) :
    (sectorSearch vals).2 = -1 ∧
    pyGet ops (sectorSearch vals).2 = ops.getLast? ∧
    ops.getLast? ≠ none ∧
    sectorSearch [] = (99999999999999, -1) := by
  have hops : ops ≠ [] := by
    intro h
    apply hne
    rw [h] at hlen
    exact List.length_eq_zero.mp hlen.symm
  have hres : sectorSearch vals = (99999999999999, -1) := by
    rcases searchFold_char vals 0 (99999999999999, -1) with ⟨_, heq⟩ |
      ⟨k, hk, _, hlt, _, _⟩
    · exact heq
    · exfalso
      have hmem : vals.getD k 0 ∈ vals := by
        rw [List.getD_eq_getElem vals 0 hk]
        exact List.getElem_mem hk
      exact absurd (hsent _ hmem) (not_le.mpr hlt)
  have hlp : 0 < ops.length := List.length_pos.mpr hops
  refine ⟨by rw [hres], ?_, ?_, rfl⟩
  · rw [hres]
    show pyGet ops (-1) = ops.getLast?
    rw [pyGet]
    have h1 : ¬ (0 : ℤ) ≤ -1 := by decide
    rw [if_neg h1, if_pos (by simpa using hlp)]
    simp [List.getLast?_eq_getElem?]
  · intro h
    rcases List.exists_cons_of_ne_nil hops with ⟨a, as, ha⟩
    rw [ha] at h
    simp [List.getLast?] at h

/-- Claim C9 witness: a one-candidate run whose eigenvalue equals the
sentinel keeps index -1 and reports the last operator. -/
theorem sector_search_sentinel_keeps_minus_one_witness :
    (sectorSearch [(99999999999999 : ℚ)]).2 = -1 ∧
    pyGet [(7 : ℕ)] (sectorSearch [(99999999999999 : ℚ)]).2 = some 7 := by
  have h := sector_search_sentinel_keeps_minus_one
    [(99999999999999 : ℚ)] [(7 : ℕ)] (by decide) rfl (by decide)
  exact ⟨h.1, h.2.1.trans rfl⟩

/-- Claim C3 counterexample: with reference energy 0 and tolerance 1e-6,
sector 0 (eigenvalue 0) matches the reference exactly while sector 1
(eigenvalue -5) is far outside tolerance, yet the cell-10 loop selects
sector 1 and reports it as the match; no NoMatchingSector outcome exists
and the selected sector is not the one closest to the reference. -/
theorem sector_search_ignores_reference_counterexample :
    sectorSearch [0, -5] = (-5, 1) ∧
    |(0 : ℚ) - 0| ≤ 1 / 1000000 ∧
    ¬ (|(-5 : ℚ) - 0| ≤ 1 / 1000000) := by
  refine ⟨by decide, by norm_num, by norm_num⟩

/-- Claim C3 (amended): Sector Search selects the sector with the
globally smallest lowest eigenvalue; the reference energy is not an input
of the loop and no NoMatchingSector outcome exists — whenever any
candidate beats the sentinel the loop unconditionally reports a
non-negative index whose eigenvalue is the minimum of all candidates, so
callers cannot distinguish a matched sector from a best guess. -/
theorem sector_search_returns_min_unconditionally (vals : List ℚ)
    (h : ∃ v ∈ vals, v < 99999999999999) :
    0 ≤ (sectorSearch vals).2 ∧
    (sectorSearch vals).1 ∈ vals ∧
    (∀ v ∈ vals, (sectorSearch vals).1 ≤ v) := by
  rcases searchFold_char vals 0 (99999999999999, -1) with ⟨hall, _⟩ |
    ⟨k, hk, heq, _, hmin, _⟩
  · exfalso
    rcases h with ⟨v, hv, hlt⟩
    exact absurd (hall v hv) (not_le.mpr hlt)
  · have hres : sectorSearch vals = (vals.getD k 0, (k : ℤ)) := by
      rw [sectorSearch, heq]
      simp
    refine ⟨by rw [hres]; exact Int.ofNat_nonneg k, ?_, ?_⟩
    · rw [hres]
      show vals.getD k 0 ∈ vals
      rw [List.getD_eq_getElem vals 0 hk]
      exact List.getElem_mem hk
    · intro v hv
      rw [hres]
      show vals.getD k 0 ≤ v
      rcases List.mem_iff_getElem.mp hv with ⟨j, hj, hjv⟩
      have := hmin j hj
      rwa [List.getD_eq_getElem vals 0 hj, hjv] at this

/-- Claim C3 amended-theorem witness at a concrete two-sector run. -/
theorem sector_search_returns_min_unconditionally_witness :
    0 ≤ (sectorSearch [(2 : ℚ), 7]).2 ∧
    (sectorSearch [(2 : ℚ), 7]).1 ∈ [(2 : ℚ), 7] := by
  have h := sector_search_returns_min_unconditionally [(2 : ℚ), 7]
    ⟨2, by decide, by decide⟩
  exact ⟨h.1, h.2.1⟩

/-- Claim C7: sectors are enumerated in Cartesian-product order with +1
before -1 (the all-plus sector first, and for two generators exactly
[1,1],[1,-1],[-1,1],[-1,-1]), and when several sectors attain the same
minimum lowest-eigenvalue the loop's strict comparison keeps the first
sector in enumeration order that attains it. -/
theorem sector_search_tie_break_first (vals : List ℚ) (i j : ℕ)
    (hij : i < j) (hj : j < vals.length)
    (htie : vals.getD i 0 = vals.getD j 0)
    (hmin : ∀ l, l < vals.length → vals.getD i 0 ≤ vals.getD l 0)
    (hfirst : ∀ l, l < i → vals.getD i 0 < vals.getD l 0)
    (hsent : vals.getD i 0 < 99999999999999) :
    sectorSearch vals = (vals.getD i 0, (i : ℤ)) ∧
    (∀ m : ℕ, (sectorList m).head? = some (List.replicate m 1)) ∧
    sectorList 2 = [[1, 1], [1, -1], [-1, 1], [-1, -1]] := by
  have hi : i < vals.length := hij.trans hj
  rcases searchFold_char vals 0 (99999999999999, -1) with ⟨hall, _⟩ |
    ⟨k, hk, heq, _, hmin2, hfirst2⟩
  · exfalso
    have hmem : vals.getD i 0 ∈ vals := by
      rw [List.getD_eq_getElem vals 0 hi]
      exact List.getElem_mem hi
    exact absurd (hall _ hmem) (not_le.mpr hsent)
  · have hkey : k = i := by
      rcases lt_trichotomy k i with hlt | hek | hgt
      · exact absurd (hmin2 i hi) (not_le.mpr (hfirst k hlt))
      · exact hek
      · exact absurd (hmin k hk) (not_le.mpr (hfirst2 i hgt))
    subst hkey
    refine ⟨?_, sectorList_head, by decide⟩
    rw [sectorSearch, heq]
    simp

/-- Claim C7 witness: eigenvalues [4, 1, 1, 3] tie at the minimum on
sectors 1 and 2; the loop returns sector 1, the first of the tie. -/
theorem sector_search_tie_break_first_witness :
    sectorSearch [(4 : ℚ), 1, 1, 3] = (1, 1) ∧
    sectorList 2 = [[1, 1], [1, -1], [-1, 1], [-1, -1]] := by
  have h := sector_search_tie_break_first [(4 : ℚ), 1, 1, 3] 1 2
    (by decide) (by decide) (by decide) (by decide) (by decide) (by decide)
  exact ⟨h.1, h.2.2⟩

/-- Properties of the chosen witness position: in range, non-identity on
the generator, unused, and minimal among unused non-identity positions. -/
theorem lowestFree_spec (g : PauliString) (used : List ℕ) (p : ℕ)
    (h : lowestFree g used = some p) :
    p < g.length ∧ g.getD p Pauli.I ≠ Pauli.I ∧ p ∉ used ∧
    (∀ j, j < p → g.getD j Pauli.I ≠ Pauli.I → j ∈ used) := by
  rw [lowestFree] at h
  rcases List.head?_eq_some_iff.mp h with ⟨t, ht⟩
  have hmem : p ∈ (List.range g.length).filter
      (fun i => decide (g.getD i Pauli.I ≠ Pauli.I ∧ i ∉ used)) := by
    rw [ht]; exact List.mem_cons_self p t
  rcases List.mem_filter.mp hmem with ⟨hrange, hdec⟩
  rcases of_decide_eq_true hdec with ⟨hni, hnu⟩
  refine ⟨List.mem_range.mp hrange, hni, hnu, ?_⟩
  intro j hj hjni
  by_contra hju
  have hjmem : j ∈ (List.range g.length).filter
      (fun i => decide (g.getD i Pauli.I ≠ Pauli.I ∧ i ∉ used)) := by
    refine List.mem_filter.mpr ⟨List.mem_range.mpr ?_, decide_eq_true ⟨hjni, hju⟩⟩
    exact hj.trans (List.mem_range.mp hrange)
  have hpw : ((List.range g.length).filter
      (fun i => decide (g.getD i Pauli.I ≠ Pauli.I ∧ i ∉ used))).Pairwise (· < ·) :=
    (List.pairwise_lt_range g.length).filter _
  rw [ht] at hjmem hpw
  rcases List.mem_cons.mp hjmem with hjp | hjt
  · omega
  · have := (List.pairwise_cons.mp hpw).1 j hjt
    omega

/-- The witness string has the declared length. -/
theorem witnessString_length (n p : ℕ) : (witnessString n p).length = n := by
  induction n generalizing p with
  | zero => rfl
  | succ m ih =>
    cases p with
    | zero => simp [witnessString]
    | succ q => simp [witnessString, ih q]

/-- Coordinates of the witness string: X at the chosen position, identity
elsewhere. -/
theorem witnessString_getD (n p j : ℕ) (hp : p < n) (hj : j < n) :
    (witnessString n p).getD j Pauli.I =
      (if j = p then Pauli.X else Pauli.I) := by
  induction n generalizing p j with
  | zero => omega
  | succ m ih =>
    cases p with
    | zero =>
      cases j with
      | zero => simp [witnessString]
      | succ i =>
        simp only [witnessString, List.getD_cons_succ]
        have hi : i < (List.replicate m Pauli.I).length := by
          simpa using (by omega : i < m)
        rw [List.getD_eq_getElem _ _ hi, List.getElem_replicate]
        simp
    | succ q =>
      cases j with
      | zero => simp [witnessString]
      | succ i =>
        simp only [witnessString, List.getD_cons_succ]
        rw [ih q i (by omega) (by omega)]
        simp [Nat.succ_inj]

/-- The witness string contains X exactly once. -/
theorem witnessString_count (n p : ℕ) (hp : p < n) :
    (witnessString n p).count Pauli.X = 1 := by
  induction n generalizing p with
  | zero => omega
  | succ m ih =>
    cases p with
    | zero =>
      simp only [witnessString]
      rw [List.count_cons_self, List.count_replicate]
      simp
    | succ q =>
      simp only [witnessString]
      rw [List.count_cons_of_ne (by simp), ih q (by omega)]

/-- A string never conflicts with the all-identity string. -/
theorem countDiffNonI_replicate (s : PauliString) :
    ∀ n, countDiffNonI s (List.replicate n Pauli.I) = 0 := by
  induction s with
  | nil => intro n; cases n <;> rfl
  | cons a rest ih =>
    intro n
    cases n with
    | zero => rfl
    | succ m =>
      simp only [List.replicate_succ, countDiffNonI, List.zipWith_cons_cons,
        List.sum_cons]
      have h1 : diffNonI a Pauli.I = 0 := by simp [diffNonI]
      have h2 := ih m
      rw [countDiffNonI] at h2
      omega

/-- A generator and its witness conflict at exactly the chosen position,
provided the generator is non-identity and differs from X there. -/
theorem countDiffNonI_witness (g : PauliString) :
    ∀ p, p < g.length → g.getD p Pauli.I ≠ Pauli.I →
    g.getD p Pauli.I ≠ Pauli.X →
    countDiffNonI g (witnessString g.length p) = 1 := by
  induction g with
  | nil =>
    intro p hp
    simp at hp
  | cons a rest ih =>
    intro p hp hni hnx
    cases p with
    | zero =>
      simp only [List.getD_cons_zero] at hni hnx
      simp only [List.length_cons, witnessString, countDiffNonI,
        List.zipWith_cons_cons, List.sum_cons]
      have h1 : diffNonI a Pauli.X = 1 := by
        simp [diffNonI, hni, hnx]
      have h2 := countDiffNonI_replicate rest rest.length
      rw [countDiffNonI] at h2
      omega
    | succ q =>
      simp only [List.getD_cons_succ] at hni hnx
      simp only [List.length_cons, witnessString, countDiffNonI,
        List.zipWith_cons_cons, List.sum_cons]
      have h1 : diffNonI a Pauli.I = 0 := by simp [diffNonI]
      have h2 := ih q (by simpa using hp) hni hnx
      rw [countDiffNonI] at h2
      omega

/-- Claim C6 counterexample: the generator consisting of a single X has
its lowest non-identity position at qubit 0, whose witness is that same X
string; the two commute rather than anticommute, refuting the claimed
by-construction anticommutation for generators that are X at the chosen
position. -/
theorem clifford_anticommute_counterexample :
    lowestFree [Pauli.X] [] = some 0 ∧
    witnessString 1 0 = [Pauli.X] ∧
    commutes [Pauli.X] (witnessString 1 0) = true := by
  refine ⟨by decide, by decide, by decide⟩

/-- Claim C6 (amended): for a generator g whose chosen position carries a
Pauli other than X (in particular Y or Z, as for the LiH Z-type
generators), the constructor's witness is X at exactly one qubit and
identity elsewhere, the Clifford pair carries coefficient
0.7071067811865475 on both terms, and g anticommutes with its witness
because they differ at exactly the one position where both are
non-identity.  A generator that is X at the chosen position instead
commutes with its witness. -/
theorem clifford_pair_properties (g : PauliString) (used : List ℕ) (p : ℕ)
    (h : lowestFree g used = some p) (hx : g.getD p Pauli.I ≠ Pauli.X) :
    p < g.length ∧ g.getD p Pauli.I ≠ Pauli.I ∧
    (witnessString g.length p).count Pauli.X = 1 ∧
    (∀ j, j < g.length → j ≠ p →
      (witnessString g.length p).getD j Pauli.I = Pauli.I) ∧
    (witnessString g.length p).getD p Pauli.I = Pauli.X ∧
    (cliffordPair g p).map Prod.fst = [sqrtHalfCoeff, sqrtHalfCoeff] ∧
    countDiffNonI g (witnessString g.length p) = 1 ∧
    commutes g (witnessString g.length p) = false := by
  rcases lowestFree_spec g used p h with ⟨hp, hni, -, -⟩
  have hcount := countDiffNonI_witness g p hp hni hx
  refine ⟨hp, hni, witnessString_count g.length p hp, ?_, ?_, rfl, hcount, ?_⟩
  · intro j hj hjp
    rw [witnessString_getD g.length p j hp hj]
    simp [hjp]
  · rw [witnessString_getD g.length p p hp hp]
    simp
  · rw [commutes, hcount]
    rfl

/-- Claim C6 witness: the LiH generator ZIZIZIZI gets witness position 1
(a Z position), its Clifford pair carries the printed coefficient twice,
and generator and witness anticommute. -/
theorem clifford_pair_properties_witness :
    commutes gZIZIZIZI (witnessString 8 1) = false ∧
    (cliffordPair gZIZIZIZI 1).map Prod.fst = [sqrtHalfCoeff, sqrtHalfCoeff] ∧
    lowestFree gZIZIZIZI [] = some 1 := by
  have h := clifford_pair_properties gZIZIZIZI [] 1 (by decide) (by decide)
  exact ⟨h.2.2.2.2.2.2.2, h.2.2.2.2.2.1, by decide⟩

/-- Claim C8: a successful greedy assignment gives each generator the
lowest-index unused qubit at which it is non-identity, all chosen
positions are mutually distinct and avoid the initially used set, and
there is one position per generator. -/
theorem assign_positions_distinct (gs : List PauliString) :
    ∀ (used ps : List ℕ), assignPositions gs used = some ps →
    ps.Nodup ∧ (∀ p ∈ ps, p ∉ used) ∧ ps.length = gs.length ∧
    (∀ i (hi : i < gs.length) (hi2 : i < ps.length),
      lowestFree gs[i] (used ++ ps.take i) = some ps[i]) := by
  induction gs with
  | nil =>
    intro used ps h
    simp only [assignPositions, Option.some.injEq] at h
    subst h
    refine ⟨List.nodup_nil, ?_, rfl, ?_⟩
    · intro p hp
      cases hp
    · intro i hi
      exact absurd hi (by simp)
  | cons g rest ih =>
    intro used ps h
    simp only [assignPositions] at h
    rcases hlf : lowestFree g used with _ | p
    · rw [hlf] at h; cases h
    · rw [hlf] at h
      rcases Option.map_eq_some'.mp h with ⟨qs, hqs, hps⟩
      subst hps
      rcases ih (used ++ [p]) qs hqs with ⟨hnd, hnin, hlen, hidx⟩
      have hpspec := lowestFree_spec g used p hlf
      refine ⟨?_, ?_, by simpa using hlen, ?_⟩
      · refine List.nodup_cons.mpr ⟨?_, hnd⟩
        intro hpqs
        have := hnin p hpqs
        simp at this
      · intro q hq
        rcases List.mem_cons.mp hq with hq | hq
        · subst hq; exact hpspec.2.2.1
        · intro hqu
          exact hnin q hq (List.mem_append.mpr (Or.inl hqu))
      · intro i hi hi2
        cases i with
        | zero =>
          show lowestFree g (used ++ List.take 0 (p :: qs)) = some p
          rw [List.take_zero, List.append_nil]
          exact hlf
        | succ i =>
          have hi3 : i < rest.length := by simpa using hi
          have hi4 : i < qs.length := by simpa using hi2
          have h1 : (g :: rest)[i + 1] = rest[i] := rfl
          have h2 : (p :: qs)[i + 1] = qs[i] := rfl
          rw [h1, h2]
          have h3 : used ++ (p :: qs).take (i + 1) =
              (used ++ [p]) ++ qs.take i := by
            rw [List.take_succ_cons, List.append_cons]
          rw [h3]
          exact hidx i (by simpa using hi) (by simpa using hi2)

/-- Claim C8 witness: on the LiH generators ZIZIZIZI and ZZIIZZII the
assignment yields sq_list = [1, 2], two distinct positions. -/
theorem assign_positions_distinct_witness :
    assignPositions [gZIZIZIZI, gZZIIZZII] [] = some [1, 2] ∧
    List.Nodup [1, 2] := by
  refine ⟨by decide, ?_⟩
  exact (assign_positions_distinct [gZIZIZIZI, gZZIIZZII] [] [1, 2]
    (by decide)).1

/-- Claim C10: printed labels place qubit i at the i-th character from
the right, so the witness with X at qubit p prints as a label of length N
whose only X is at character N - 1 - p from the left; for 8 qubits,
position 1 prints as IIIIIIXI and position 2 as IIIIIXII. -/
theorem to_label_places_qubit_from_right (N p : ℕ) (hp : p < N) :
    (toLabel (witnessString N p)).length = N ∧
    (toLabel (witnessString N p)).getD (N - 1 - p) 'Z' = 'X' ∧
    (∀ j, j < N → j ≠ N - 1 - p →
      (toLabel (witnessString N p)).getD j 'Z' = 'I') := by
  have hlen : (toLabel (witnessString N p)).length = N := by
    simp [toLabel, witnessString_length]
  have hchar : ∀ j, j < N →
      (toLabel (witnessString N p)).getD j 'Z' =
        Pauli.pchar ((witnessString N p).getD (N - 1 - j) Pauli.I) := by
    intro j hj
    have hj1 : j < (toLabel (witnessString N p)).length := by rw [hlen]; exact hj
    rw [List.getD_eq_getElem _ _ hj1]
    simp only [toLabel]
    have hj2 : j < ((witnessString N p).reverse.map Pauli.pchar).length := hj1
    rw [List.getElem_map]
    have hj3 : j < (witnessString N p).reverse.length := by
      simpa [witnessString_length] using hj
    rw [List.getElem_reverse]
    have hlt : (witnessString N p).length - 1 - j < (witnessString N p).length := by
      rw [witnessString_length]; omega
    rw [← List.getD_eq_getElem _ Pauli.I hlt, witnessString_length]
  refine ⟨hlen, ?_, ?_⟩
  · rw [hchar (N - 1 - p) (by omega)]
    have : N - 1 - (N - 1 - p) = p := by omega
    rw [this, witnessString_getD N p p hp hp]
    simp [Pauli.pchar]
  · intro j hj hjp
    rw [hchar j hj]
    have hne : N - 1 - j ≠ p := by omega
    rw [witnessString_getD N p (N - 1 - j) hp (by omega)]
    simp [hne, Pauli.pchar]

/-- Claim C10 witness: the concrete 8-qubit labels for witness positions
1 and 2, as printed by the notebook. -/
theorem to_label_places_qubit_from_right_witness :
    toLabel (witnessString 8 1) = ['I', 'I', 'I', 'I', 'I', 'I', 'X', 'I'] ∧
    (toLabel (witnessString 8 1)).getD 6 'Z' = 'X' ∧
    toLabel (witnessString 8 2) = ['I', 'I', 'I', 'I', 'I', 'X', 'I', 'I'] := by
  refine ⟨by decide, ?_, by decide⟩
  exact (to_label_places_qubit_from_right 8 1 (by decide)).2.1

/-- Removing a duplicate-free set of in-range positions from the index
range leaves exactly the complement. -/
theorem length_filter_not_mem (idxs : List ℕ) (N : ℕ) (hnd : idxs.Nodup)
    (hsub : ∀ q ∈ idxs, q < N) :
    ((List.range N).filter (fun i => decide (i ∉ idxs))).length =
      N - idxs.length := by
  have hperm : List.Perm
      ((List.range N).filter (fun i => decide (i ∈ idxs))) idxs := by
    rw [List.perm_ext_iff_of_nodup
      ((List.nodup_range N).filter _) hnd]
    intro a
    simp only [List.mem_filter, List.mem_range, decide_eq_true_eq]
    exact ⟨fun h => h.2, fun h => ⟨hsub a h, h⟩⟩
  have hsplit := (List.filter_append_perm
    (fun i => decide (i ∈ idxs)) (List.range N)).length_eq
  rw [List.length_append, List.length_range, hperm.length_eq] at hsplit
  have hnot : (List.range N).filter (fun i => decide (i ∉ idxs)) =
      (List.range N).filter (fun i => !(decide (i ∈ idxs))) := by
    apply List.filter_congr
    intro i _
    simp
  rw [hnot]
  omega

/-- The reduced string of a term has exactly the original length minus
the number of removed positions. -/
theorem removeIdxs_length (s : PauliString) (idxs : List ℕ)
    (hnd : idxs.Nodup) (hsub : ∀ q ∈ idxs, q < s.length) :
    (removeIdxs s idxs).length = s.length - idxs.length := by
  rw [removeIdxs, List.length_map,
    length_filter_not_mem idxs s.length hnd hsub]

/-- Inserting a term into a merged list introduces no new strings. -/
theorem addTermTo_str (t : PauliTerm) :
    ∀ (acc : List PauliTerm), ∀ u ∈ addTermTo acc t,
      (∃ w ∈ acc, u.str = w.str) ∨ u.str = t.str := by
  intro acc
  induction acc with
  | nil =>
    intro u hu
    rcases List.mem_singleton.mp hu with h
    subst h
    exact Or.inr rfl
  | cons a rest ih =>
    intro u hu
    rw [addTermTo] at hu
    by_cases hstr : a.str = t.str
    · rw [if_pos hstr] at hu
      rcases List.mem_cons.mp hu with h | h
      · subst h
        exact Or.inl ⟨a, List.mem_cons_self a rest, rfl⟩
      · exact Or.inl ⟨u, List.mem_cons_of_mem a h, rfl⟩
    · rw [if_neg hstr] at hu
      rcases List.mem_cons.mp hu with h | h
      · subst h
        exact Or.inl ⟨u, List.mem_cons_self u rest, rfl⟩
      · rcases ih u h with ⟨w, hw, hws⟩ | h2
        · exact Or.inl ⟨w, List.mem_cons_of_mem a hw, hws⟩
        · exact Or.inr h2

/-- Every merged term carries the string of some input term. -/
theorem mergeTerms_str (ts : List PauliTerm) :
    ∀ u ∈ mergeTerms ts, ∃ w ∈ ts, u.str = w.str := by
  have key : ∀ (ts acc : List PauliTerm), ∀ u ∈ ts.foldl addTermTo acc,
      (∃ w ∈ acc, u.str = w.str) ∨ (∃ w ∈ ts, u.str = w.str) := by
    intro ts
    induction ts with
    | nil =>
      intro acc u hu
      exact Or.inl ⟨u, hu, rfl⟩
    | cons t rest ih =>
      intro acc u hu
      rw [List.foldl_cons] at hu
      rcases ih (addTermTo acc t) u hu with ⟨w, hw, hws⟩ | ⟨w, hw, hws⟩
      · rcases addTermTo_str t acc w hw with ⟨w2, hw2, hw2s⟩ | h2
        · exact Or.inl ⟨w2, hw2, hws.trans hw2s⟩
        · exact Or.inr ⟨t, List.mem_cons_self t rest, hws.trans h2⟩
      · exact Or.inr ⟨w, List.mem_cons_of_mem t hw, hws⟩
  intro u hu
  rcases key ts [] u hu with ⟨w, hw, _⟩ | h
  · cases hw
  · exact h

/-- Claim C4 counterexample: the operator with terms Z-qubit0 and
identity admits the valid one-generator symmetry group consisting of ZI
(it commutes with both terms and is non-identity at the tapered qubit 0),
yet tapering it in the minus sector cancels every term, so the tapered
operator has 0 qubits instead of 2 - 1 = 1. -/
theorem taper_qubit_count_counterexample :
    (taper opZIplusII [0] [-1]).numQubits = 0 ∧
    opZIplusII.numQubits = 2 ∧
    ¬ ((taper opZIplusII [0] [-1]).numQubits = opZIplusII.numQubits - 1) ∧
    commutes [Pauli.Z, Pauli.I] [Pauli.Z, Pauli.I] = true ∧
    commutes [Pauli.Z, Pauli.I] [Pauli.I, Pauli.I] = true ∧
    [Pauli.Z, Pauli.I].getD 0 Pauli.I ≠ Pauli.I := by
  have key : taper opZIplusII [0] [-1] = ⟨[]⟩ := by
    simp [taper, opZIplusII, sectorFactor, anticWithX, removeIdxs, mergeTerms,
      addTermTo, dropZeros, List.range_succ]
  refine ⟨?_, by decide, ?_, by decide, by decide, by decide⟩
  · rw [key]
    rfl
  · rw [key]
    decide

/-- Claim C4 (amended): for an operator with uniform term length N and k
distinct in-range tapered positions, every term surviving the taper has
exactly N - k qubits, and whenever at least one term survives the
zero-coefficient elimination the tapered operator's num_qubits is
N - k; if all terms cancel the tapered operator is empty and num_qubits
is 0. -/
theorem taper_reduces_qubit_count (op : PauliOperator) (N : ℕ)
    (sqList : List ℕ) (sector : List ℚ)
    (hN : ∀ t ∈ op.paulis, t.str.length = N)
    (hnd : sqList.Nodup) (hsub : ∀ q ∈ sqList, q < N) :
    (∀ t ∈ (taper op sqList sector).paulis,
      t.str.length = N - sqList.length) ∧
    ((taper op sqList sector).paulis ≠ [] →
      (taper op sqList sector).numQubits = N - sqList.length) := by
  have hall : ∀ t ∈ (taper op sqList sector).paulis,
      t.str.length = N - sqList.length := by
    intro t ht
    have ht2 : t ∈ mergeTerms (op.paulis.map
        (fun u => ⟨u.coeff * sectorFactor u.str sqList sector,
                   removeIdxs u.str sqList⟩)) :=
      (List.mem_filter.mp ht).1
    rcases mergeTerms_str _ t ht2 with ⟨w, hw, hws⟩
    rcases List.mem_map.mp hw with ⟨u, hu, huw⟩
    have hlen : w.str = removeIdxs u.str sqList := by rw [← huw]
    rw [hws, hlen, removeIdxs_length u.str sqList hnd
      (by rw [hN u hu]; exact hsub)]
    rw [hN u hu]
  refine ⟨hall, ?_⟩
  intro hne
  rcases hp : (taper op sqList sector).paulis with _ | ⟨a, rest⟩
  · exact absurd hp hne
  · have ha : a ∈ (taper op sqList sector).paulis := by
      rw [hp]; exact List.mem_cons_self a rest
    have : (taper op sqList sector).numQubits = a.str.length := by
      rw [PauliOperator.numQubits, hp]
    rw [this, hall a ha]

/-- Claim C4 amended-theorem witness: tapering the two-qubit Z-Z operator
at qubit 0 leaves a one-qubit operator. -/
theorem taper_reduces_qubit_count_witness :
    (taper opZZ [0] [(-1 : ℚ)]).numQubits = 2 - 1 := by
  exact (taper_reduces_qubit_count opZZ 2 [0] [-1] (by decide) (by decide)
    (by decide)).2 (by
      simp [taper, opZZ, sectorFactor, anticWithX, removeIdxs, mergeTerms,
        addTermTo, dropZeros, List.range_succ])

/-- Vector addition preserves length on equal-length vectors. -/
theorem addV_length (u v : BVec) (h : u.length = v.length) :
    (addV u v).length = u.length := by
  rw [addV, List.length_zipWith, h, Nat.min_self]

/-- Coordinates of a sum of equal-length vectors. -/
theorem addV_getD (u : BVec) :
    ∀ (v : BVec), u.length = v.length → ∀ (j : ℕ),
    (addV u v).getD j 0 = u.getD j 0 + v.getD j 0 := by
  induction u with
  | nil =>
    intro v h j
    have hv : v = [] := List.length_eq_zero.mp h.symm
    subst hv
    simp [addV]
  | cons a u ih =>
    intro v h j
    cases v with
    | nil => simp at h
    | cons b v =>
      cases j with
      | zero => simp [addV]
      | succ i =>
        simp only [addV, List.zipWith_cons_cons, List.getD_cons_succ]
        exact ih v (by simpa using h) i

/-- The dot product is additive in its second argument over equal-length
vectors. -/
theorem dotV_addV (r : BVec) :
    ∀ (u v : BVec), u.length = v.length →
    dotV r (addV u v) = dotV r u + dotV r v := by
  induction r with
  | nil =>
    intro u v h
    simp [dotV]
  | cons a r ih =>
    intro u v h
    cases u with
    | nil =>
      have hv : v = [] := List.length_eq_zero.mp h.symm
      subst hv
      simp [dotV, addV]
    | cons x u =>
      cases v with
      | nil => simp at h
      | cons y v =>
        have hcons : dotV (a :: r) (addV (x :: u) (y :: v)) =
            a * (x + y) + dotV r (addV u v) := rfl
        have h1 : dotV (a :: r) (x :: u) = a * x + dotV r u := rfl
        have h2 : dotV (a :: r) (y :: v) = a * y + dotV r v := rfl
        rw [hcons, h1, h2, ih u v (by simpa using h)]
        ring

/-- The image under the constraint matrix is additive. -/
theorem image_addV (M : List BVec) (u v : BVec) (h : u.length = v.length) :
    image M (addV u v) = addV (image M u) (image M v) := by
  induction M with
  | nil => rfl
  | cons r M ih =>
    show dotV r (addV u v) :: image M (addV u v) =
      addV (dotV r u :: image M u) (dotV r v :: image M v)
    rw [ih, dotV_addV r u v h]
    rfl

/-- The standard basis vector has the declared length. -/
theorem unitV_length (n i : ℕ) : (unitV n i).length = n := by
  simp [unitV]

/-- The standard basis vector is 1 at its own coordinate. -/
theorem unitV_getD_self (n i : ℕ) (h : i < n) :
    (unitV n i).getD i 0 = 1 := by
  have h1 : i < (unitV n i).length := by rw [unitV_length]; exact h
  rw [List.getD_eq_getElem _ _ h1]
  simp [unitV]

/-- The standard basis vector vanishes away from its own coordinate. -/
theorem unitV_getD_ne (n i j : ℕ) (h : j ≠ i) :
    (unitV n i).getD j 0 = 0 := by
  by_cases hj : j < n
  · have h1 : j < (unitV n i).length := by rw [unitV_length]; exact hj
    rw [List.getD_eq_getElem _ _ h1]
    simp [unitV, h]
  · rw [List.getD_eq_default]
    rw [unitV_length]
    omega

/-- An all-zero image means the candidate is orthogonal to every row. -/
theorem image_all_zero (M : List BVec) (v : BVec)
    (h : (image M v).all (fun x => decide (x = 0)) = true) :
    ∀ r ∈ M, dotV r v = 0 := by
  intro r hr
  have hmem : dotV r v ∈ image M v := List.mem_map_of_mem _ hr
  have := List.all_eq_true.mp h _ hmem
  exact of_decide_eq_true this

/-- The reduction pass preserves the image relation, the length, and all
coordinates from a bound below which every pivot vanishes. -/
theorem reduceAgainst_inv (M : List BVec) (n i : ℕ) :
    ∀ (piv : List (BVec × BVec)) (lv : BVec × BVec),
    (∀ p ∈ piv, p.1 = image M p.2 ∧ p.2.length = n ∧
      (∀ j, i ≤ j → p.2.getD j 0 = 0)) →
    lv.1 = image M lv.2 → lv.2.length = n →
    (reduceAgainst piv lv).1 = image M (reduceAgainst piv lv).2 ∧
    (reduceAgainst piv lv).2.length = n ∧
    (∀ j, i ≤ j → (reduceAgainst piv lv).2.getD j 0 = lv.2.getD j 0) := by
  intro piv
  induction piv with
  | nil =>
    intro lv _ hs hl
    exact ⟨hs, hl, fun j _ => rfl⟩
  | cons p rest ih =>
    intro lv hpiv hs hl
    have hp := hpiv p (List.mem_cons_self p rest)
    have hrest : ∀ q ∈ rest, q.1 = image M q.2 ∧ q.2.length = n ∧
        (∀ j, i ≤ j → q.2.getD j 0 = 0) :=
      fun q hq => hpiv q (List.mem_cons_of_mem p hq)
    rw [reduceAgainst]
    by_cases hcond : pivHit lv p = true
    · rw [if_pos hcond]
      have hlen2 : lv.2.length = p.2.length := by rw [hl, hp.2.1]
      have hs2 : addV lv.1 p.1 = image M (addV lv.2 p.2) := by
        rw [hs, hp.1, image_addV M lv.2 p.2 hlen2]
      have hl2 : (addV lv.2 p.2).length = n := by
        rw [addV_length lv.2 p.2 hlen2, hl]
      rcases ih (addV lv.1 p.1, addV lv.2 p.2) hrest hs2 hl2 with
        ⟨c1, c2, c3⟩
      refine ⟨c1, c2, ?_⟩
      intro t ht
      rw [c3 t ht]
      show (addV lv.2 p.2).getD t 0 = lv.2.getD t 0
      rw [addV_getD lv.2 p.2 hlen2 t, hp.2.2 t ht, add_zero]
    · rw [if_neg hcond]
      exact ih lv hrest hs hl

/-- The elimination loop produces at most one kernel vector per step. -/
theorem kerLoop_length (n : ℕ) (M : List BVec) :
    ∀ (steps : List ℕ) (piv : List (BVec × BVec)) (ker : List (ℕ × BVec)),
    (kerLoop n M steps piv ker).length ≤ ker.length + steps.length := by
  intro steps
  induction steps with
  | nil =>
    intro piv ker
    simp [kerLoop]
  | cons i rest ih =>
    intro piv ker
    rw [kerLoop]
    by_cases hchk : (reduceAgainst piv
        (image M (unitV n i), unitV n i)).1.all (fun x => decide (x = 0)) = true
    · rw [if_pos hchk]
      have := ih piv (ker ++ [(i, (reduceAgainst piv
        (image M (unitV n i), unitV n i)).2)])
      simp only [List.length_append, List.length_cons, List.length_nil]
        at this ⊢
      omega
    · rw [if_neg hchk]
      have := ih (piv ++ [reduceAgainst piv
        (image M (unitV n i), unitV n i)]) ker
      simp only [List.length_cons] at this ⊢
      omega

/-- Invariant of the elimination loop: every recorded kernel vector is
orthogonal to all rows, has full storage length, carries a 1 at its own
step coordinate and 0 beyond it, and the recorded steps strictly
increase. -/
theorem kerLoop_inv (n : ℕ) (M : List BVec) :
    ∀ (steps : List ℕ) (piv : List (BVec × BVec)) (ker : List (ℕ × BVec)),
    steps.Pairwise (· < ·) →
    (∀ s ∈ steps, s < n) →
    (∀ p ∈ piv, p.1 = image M p.2 ∧ p.2.length = n ∧
      (∀ s ∈ steps, ∀ j, s ≤ j → p.2.getD j 0 = 0)) →
    (∀ kv ∈ ker, (∀ r ∈ M, dotV r kv.2 = 0) ∧ kv.2.length = n ∧
      kv.1 < n ∧ kv.2.getD kv.1 0 = 1 ∧
      (∀ j, kv.1 < j → kv.2.getD j 0 = 0)) →
    (ker.map Prod.fst).Pairwise (· < ·) →
    (∀ kv ∈ ker, ∀ s ∈ steps, kv.1 < s) →
    (∀ kv ∈ kerLoop n M steps piv ker,
      (∀ r ∈ M, dotV r kv.2 = 0) ∧ kv.2.length = n ∧
      kv.1 < n ∧ kv.2.getD kv.1 0 = 1 ∧
      (∀ j, kv.1 < j → kv.2.getD j 0 = 0)) ∧
    ((kerLoop n M steps piv ker).map Prod.fst).Pairwise (· < ·) := by
  intro steps
  induction steps with
  | nil =>
    intro piv ker _ _ _ hker hsort _
    rw [kerLoop]
    exact ⟨hker, hsort⟩
  | cons i rest ih =>
    intro piv ker hpw hbound hpiv hker hsort hcross
    have hi : i < n := hbound i (List.mem_cons_self i rest)
    have hirest : ∀ s ∈ rest, i < s := (List.pairwise_cons.mp hpw).1
    have hpwrest : rest.Pairwise (· < ·) := (List.pairwise_cons.mp hpw).2
    have hboundrest : ∀ s ∈ rest, s < n :=
      fun s hs => hbound s (List.mem_cons_of_mem i hs)
    have hpivi : ∀ p ∈ piv, p.1 = image M p.2 ∧ p.2.length = n ∧
        (∀ j, i ≤ j → p.2.getD j 0 = 0) := by
      intro p hp
      have := hpiv p hp
      exact ⟨this.1, this.2.1, this.2.2 i (List.mem_cons_self i rest)⟩
    have hred := reduceAgainst_inv M n i piv
      (image M (unitV n i), unitV n i) hpivi rfl (unitV_length n i)
    set lv := reduceAgainst piv (image M (unitV n i), unitV n i) with hlv
    have hself : lv.2.getD i 0 = 1 := by
      rw [hred.2.2 i (le_refl i)]
      exact unitV_getD_self n i hi
    have habove : ∀ j, i < j → lv.2.getD j 0 = 0 := by
      intro j hj
      rw [hred.2.2 j (le_of_lt hj)]
      exact unitV_getD_ne n i j (by omega)
    rw [kerLoop]
    by_cases hchk : lv.1.all (fun x => decide (x = 0)) = true
    · rw [if_pos hchk]
      refine ih piv (ker ++ [(i, lv.2)]) hpwrest hboundrest ?_ ?_ ?_ ?_
      · intro p hp
        have := hpiv p hp
        exact ⟨this.1, this.2.1,
          fun s hs => this.2.2 s (List.mem_cons_of_mem i hs)⟩
      · intro kv hkv
        rcases List.mem_append.mp hkv with hk | hk
        · exact hker kv hk
        · rcases List.mem_singleton.mp hk with h
          subst h
          refine ⟨?_, hred.2.1, hi, hself, habove⟩
          have : lv.1 = image M lv.2 := hred.1
          rw [this] at hchk
          exact image_all_zero M lv.2 hchk
      · rw [List.map_append]
        rw [List.pairwise_append]
        refine ⟨hsort, by simp, ?_⟩
        intro a ha b hb
        rcases List.mem_map.mp ha with ⟨kv, hkv, hkva⟩
        simp only [List.map_cons, List.map_nil, List.mem_singleton] at hb
        rw [← hkva, hb]
        exact hcross kv hkv i (List.mem_cons_self i rest)
      · intro kv hkv s hs
        rcases List.mem_append.mp hkv with hk | hk
        · exact hcross kv hk s (List.mem_cons_of_mem i hs)
        · rcases List.mem_singleton.mp hk with h
          subst h
          exact hirest s hs
    · rw [if_neg hchk]
      refine ih (piv ++ [lv]) ker hpwrest hboundrest ?_ hker hsort ?_
      · intro p hp
        rcases List.mem_append.mp hp with hk | hk
        · have := hpiv p hk
          exact ⟨this.1, this.2.1,
            fun s hs => this.2.2 s (List.mem_cons_of_mem i hs)⟩
        · rcases List.mem_singleton.mp hk with h
          subst h
          refine ⟨hred.1, hred.2.1, ?_⟩
          intro s hs j hj
          exact habove j (by have := hirest s hs; omega)
      · intro kv hkv s hs
        exact hcross kv hkv s (List.mem_cons_of_mem i hs)

/-- Specification of the computed null-space basis: orthogonality to all
rows, full length, unit diagonal coordinate, vanishing above it, and
strictly increasing step indices. -/
theorem kernelSteps_spec (n : ℕ) (M : List BVec) :
    (∀ kv ∈ kernelSteps n M, (∀ r ∈ M, dotV r kv.2 = 0) ∧
      kv.2.length = n ∧ kv.1 < n ∧ kv.2.getD kv.1 0 = 1 ∧
      (∀ j, kv.1 < j → kv.2.getD j 0 = 0)) ∧
    ((kernelSteps n M).map Prod.fst).Pairwise (· < ·) := by
  refine kerLoop_inv n M (List.range n) [] [] (List.pairwise_lt_range n)
    (fun s hs => List.mem_range.mp hs) ?_ ?_ ?_ ?_
  · intro p hp; cases hp
  · intro kv hkv; cases hkv
  · simp
  · intro kv hkv; cases hkv

/-- The Pauli built from a bit pair has those X bits. -/
theorem xbit_pauliOfBits : ∀ x z : ZMod 2, (pauliOfBits x z).xbit = x := by
  decide

/-- The Pauli built from a bit pair has those Z bits. -/
theorem zbit_pauliOfBits : ∀ x z : ZMod 2, (pauliOfBits x z).zbit = z := by
  decide

/-- Per-qubit agreement of the conflict count and the symplectic term. -/
theorem diffNonI_cast : ∀ p q : Pauli,
    ((diffNonI p q : ℕ) : ZMod 2) = sympTerm p q := by
  decide

/-- The conflict count mod 2 is the symplectic inner product. -/
theorem countDiffNonI_cast (s : PauliString) :
    ∀ t : PauliString, ((countDiffNonI s t : ℕ) : ZMod 2) = symp s t := by
  induction s with
  | nil =>
    intro t
    simp [countDiffNonI, symp]
  | cons p s ih =>
    intro t
    cases t with
    | nil => simp [countDiffNonI, symp]
    | cons q t =>
      have h1 : countDiffNonI (p :: s) (q :: t) =
          diffNonI p q + countDiffNonI s t := rfl
      have h2 : symp (p :: s) (q :: t) = sympTerm p q + symp s t := rfl
      rw [h1, h2, Nat.cast_add, ih t, diffNonI_cast p q]

/-- The Commutation Engine answers true exactly when the symplectic inner
product vanishes. -/
theorem commutes_iff_symp (s t : PauliString) :
    commutes s t = true ↔ symp s t = 0 := by
  rw [commutes, beq_iff_eq, ← countDiffNonI_cast s t,
    ZMod.natCast_zmod_eq_zero_iff_dvd]
  exact (Nat.dvd_iff_mod_eq_zero).symm

/-- Dot product against a mapped string, written with the string second. -/
theorem dotV_map_mul (f : Pauli → ZMod 2) (t : PauliString) :
    ∀ xs : BVec, dotV (t.map f) xs =
      (List.zipWith (fun x q => x * f q) xs t).sum := by
  induction t with
  | nil =>
    intro xs
    cases xs <;> rfl
  | cons q t ih =>
    intro xs
    cases xs with
    | nil => rfl
    | cons x xs =>
      have h1 : dotV ((q :: t).map f) (x :: xs) =
          f q * x + dotV (t.map f) xs := rfl
      have h2 : (List.zipWith (fun x q => x * f q) (x :: xs) (q :: t)).sum =
          x * f q + (List.zipWith (fun x q => x * f q) xs t).sum := rfl
      rw [h1, h2, ih xs, mul_comm]

/-- Symplectic product of a bit-assembled string against any string,
split into the X and Z contributions. -/
theorem symp_zipWith_bits :
    ∀ (xs zs : BVec) (t : PauliString), xs.length = zs.length →
    symp (List.zipWith pauliOfBits xs zs) t =
      (List.zipWith (fun x q => x * Pauli.zbit q) xs t).sum +
      (List.zipWith (fun z q => z * Pauli.xbit q) zs t).sum := by
  intro xs
  induction xs with
  | nil =>
    intro zs t h
    have hz : zs = [] := List.length_eq_zero.mp h.symm
    subst hz
    simp [symp]
  | cons x xs ih =>
    intro zs t h
    cases zs with
    | nil => simp at h
    | cons z zs =>
      cases t with
      | nil => simp [symp]
      | cons q t =>
        have h1 : symp (List.zipWith pauliOfBits (x :: xs) (z :: zs)) (q :: t) =
            sympTerm (pauliOfBits x z) q +
              symp (List.zipWith pauliOfBits xs zs) t := rfl
        have h2 : sympTerm (pauliOfBits x z) q =
            x * Pauli.zbit q + z * Pauli.xbit q := by
          rw [sympTerm, xbit_pauliOfBits, zbit_pauliOfBits]
        have h3 : (List.zipWith (fun x q => x * Pauli.zbit q)
            (x :: xs) (q :: t)).sum = x * Pauli.zbit q +
              (List.zipWith (fun x q => x * Pauli.zbit q) xs t).sum := rfl
        have h4 : (List.zipWith (fun z q => z * Pauli.xbit q)
            (z :: zs) (q :: t)).sum = z * Pauli.xbit q +
              (List.zipWith (fun z q => z * Pauli.xbit q) zs t).sum := rfl
        rw [h1, h2, h3, h4, ih zs t (by simpa using h)]
        ring

/-- A kernel vector's dot product with a term's constraint row equals the
symplectic product of the reconstructed generator with the term. -/
theorem dotV_rowOf (t : PauliString) (v : BVec) (N : ℕ)
    (ht : t.length = N) (hv : v.length = 2 * N) :
    dotV (rowOf t) v = symp (pauliOfVec N v) t := by
  have htake : (v.take N).length = N := by
    rw [List.length_take]
    omega
  have hdrop : (v.drop N).length = N := by
    rw [List.length_drop]
    omega
  have hsplit : v = v.take N ++ v.drop N := (List.take_append_drop N v).symm
  rw [rowOf, pauliOfVec]
  conv_lhs => rw [hsplit]
  rw [dotV, List.zipWith_append _ _ _ _ _
    (by rw [List.length_map, ht, htake]), List.sum_append]
  have e1 := dotV_map_mul Pauli.zbit t (v.take N)
  have e2 := dotV_map_mul Pauli.xbit t (v.drop N)
  rw [dotV] at e1 e2
  rw [e1, e2, symp_zipWith_bits (v.take N) (v.drop N) t
    (by rw [htake, hdrop])]

/-- Reconstructing a Pauli string from a bit vector and reading its X
mask back gives the first half. -/
theorem map_xbit_zipWith : ∀ (xs zs : BVec), xs.length = zs.length →
    (List.zipWith pauliOfBits xs zs).map Pauli.xbit = xs := by
  intro xs
  induction xs with
  | nil =>
    intro zs h
    rfl
  | cons x xs ih =>
    intro zs h
    cases zs with
    | nil => simp at h
    | cons z zs =>
      show (pauliOfBits x z).xbit ::
          (List.zipWith pauliOfBits xs zs).map Pauli.xbit = x :: xs
      rw [xbit_pauliOfBits, ih zs (by simpa using h)]

/-- Reconstructing a Pauli string from a bit vector and reading its Z
mask back gives the second half. -/
theorem map_zbit_zipWith : ∀ (xs zs : BVec), xs.length = zs.length →
    (List.zipWith pauliOfBits xs zs).map Pauli.zbit = zs := by
  intro xs
  induction xs with
  | nil =>
    intro zs h
    have hz : zs = [] := List.length_eq_zero.mp h.symm
    subst hz
    rfl
  | cons x xs ih =>
    intro zs h
    cases zs with
    | nil => simp at h
    | cons z zs =>
      show (pauliOfBits x z).zbit ::
          (List.zipWith pauliOfBits xs zs).map Pauli.zbit = z :: zs
      rw [zbit_pauliOfBits, ih zs (by simpa using h)]

/-- Round trip: the bit vector of a reconstructed generator is the
original kernel vector. -/
theorem vecOfString_pauliOfVec (N : ℕ) (v : BVec) (hv : v.length = 2 * N) :
    vecOfString (pauliOfVec N v) = v := by
  have htake : (v.take N).length = N := by
    rw [List.length_take]
    omega
  have hdrop : (v.drop N).length = N := by
    rw [List.length_drop]
    omega
  rw [vecOfString, pauliOfVec,
    map_xbit_zipWith _ _ (htake.trans hdrop.symm),
    map_zbit_zipWith _ _ (htake.trans hdrop.symm)]
  exact List.take_append_drop N v

/-- A family of vectors that each carry a 1 at their own strictly
increasing marker coordinate and vanish above it admits no member equal
to a GF(2) sum of others. -/
theorem triangular_independent (w : List (ℕ × BVec))
    (hdiag : ∀ kv ∈ w, kv.2.getD kv.1 0 = 1)
    (hupper : ∀ kv ∈ w, ∀ j, kv.1 < j → kv.2.getD j 0 = 0)
    (hsorted : (w.map Prod.fst).Pairwise (· < ·)) :
    ∀ (k : ℕ), k < w.length → ∀ (S : Finset ℕ),
      (∀ j ∈ S, j < w.length) → k ∉ S →
      asFun (w.getD k (0, [])).2 ≠ ∑ j in S, asFun (w.getD j (0, [])).2 := by
  intro k hk S hS hkS heq
  have hmem : ∀ a, a < w.length → w.getD a (0, []) ∈ w := by
    intro a ha
    rw [List.getD_eq_getElem _ _ ha]
    exact List.getElem_mem ha
  have hstep : ∀ a b, a < b → b < w.length →
      (w.getD a (0, [])).1 < (w.getD b (0, [])).1 := by
    intro a b hab hb
    have ha : a < w.length := hab.trans hb
    have hmap := List.pairwise_iff_getElem.mp hsorted a b
      (by simpa using ha) (by simpa using hb) hab
    rw [List.getElem_map, List.getElem_map] at hmap
    rw [List.getD_eq_getElem _ _ ha, List.getD_eq_getElem _ _ hb]
    exact hmap
  have hTne : (insert k S).Nonempty := ⟨k, Finset.mem_insert_self k S⟩
  set m := (insert k S).max' hTne with hm
  have hmT : m ∈ insert k S := Finset.max'_mem _ hTne
  have hle : ∀ j ∈ insert k S, j ≤ m := fun j hj => Finset.le_max' _ j hj
  have hmlt : m < w.length := by
    rcases Finset.mem_insert.mp hmT with h | h
    · rw [h]; exact hk
    · exact hS m h
  have hpoint := congrFun heq ((w.getD m (0, [])).1)
  rw [Finset.sum_apply] at hpoint
  rcases Finset.mem_insert.mp hmT with hmk | hmS
  · have hLHS : asFun (w.getD k (0, [])).2 ((w.getD m (0, [])).1) = 1 := by
      rw [hmk]
      exact hdiag _ (hmem k hk)
    have hRHS : ∀ j ∈ S, asFun (w.getD j (0, [])).2
        ((w.getD m (0, [])).1) = 0 := by
      intro j hj
      have hjk : j < k := by
        have := hle j (Finset.mem_insert_of_mem hj)
        have hne : j ≠ k := fun h => hkS (h ▸ hj)
        omega
      have := hstep j k hjk hk
      refine hupper _ (hmem j (hjk.trans hk)) _ ?_
      rw [← hmk] at this
      exact this
    rw [hLHS, Finset.sum_eq_zero hRHS] at hpoint
    exact one_ne_zero hpoint
  · have hkm : k < m := by
      have := hle k (Finset.mem_insert_self k S)
      have hne : k ≠ m := fun h => hkS (h ▸ hmS)
      omega
    have hLHS : asFun (w.getD k (0, [])).2 ((w.getD m (0, [])).1) = 0 :=
      hupper _ (hmem k hk) _ (hstep k m hkm hmlt)
    have hRHS : (∑ j in S, asFun (w.getD j (0, [])).2
        ((w.getD m (0, [])).1)) = 1 := by
      rw [Finset.sum_eq_single_of_mem m hmS]
      · exact hdiag _ (hmem m hmlt)
      · intro j hj hjm
        have hjlt : j < m := by
          have := hle j (Finset.mem_insert_of_mem hj)
          omega
        exact hupper _ (hmem j (hjlt.trans hmlt)) _ (hstep j m hjlt hmlt)
    rw [hLHS, hRHS] at hpoint
    exact zero_ne_one hpoint

/-- Claim C5 counterexample: the two-qubit operator with the single term
X-qubit0 is a valid PauliOperator, yet the null-space symmetry finder
returns 3 independent generators, exceeding the qubit count 2 — the
commutant of an under-constrained operator can be larger than N. -/
theorem symmetry_count_exceeds_qubits_counterexample :
    (find_Z2_symmetries opXI).length = 3 ∧ opXI.numQubits = 2 ∧
    ¬ ((find_Z2_symmetries opXI).length ≤ opXI.numQubits) := by
  refine ⟨by decide, by decide, by decide⟩

/-- Claim C5 (amended): for every PauliOperator with uniform term length,
every generator found by the Symmetry Finder commutes with every term of
the operator (checked by the Commutation Engine), the generator set is
linearly independent over GF(2) — no generator's symplectic bit vector is
the GF(2) sum of any subset of the others' — and the generator count
never exceeds 2N (though it can exceed N for under-constrained
operators). -/
theorem find_Z2_symmetries_sound (op : PauliOperator)
    (hN : ∀ t ∈ op.paulis, t.str.length = op.numQubits) :
    (∀ g ∈ find_Z2_symmetries op, ∀ t ∈ op.paulis,
      commutes g t.str = true) ∧
    (find_Z2_symmetries op).length ≤ 2 * op.numQubits ∧
    (∀ (k : ℕ), k < (find_Z2_symmetries op).length → ∀ (S : Finset ℕ),
      (∀ j ∈ S, j < (find_Z2_symmetries op).length) → k ∉ S →
      strFun ((find_Z2_symmetries op).getD k []) ≠
        ∑ j in S, strFun ((find_Z2_symmetries op).getD j [])) := by
  by_cases hemp : op.paulis = [] ∨ op.numQubits = 0
  · rw [find_Z2_symmetries, if_pos hemp]
    refine ⟨?_, ?_, ?_⟩
    · intro g hg
      cases hg
    · simp
    · intro k hk
      simp at hk
  · rw [find_Z2_symmetries, if_neg hemp]
    set N := op.numQubits with hNdef
    set M := op.paulis.map (fun t => rowOf t.str) with hMdef
    have hspec := kernelSteps_spec (2 * N) M
    set ks := kernelSteps (2 * N) M with hksdef
    have hlen : (ks.map (fun kv => pauliOfVec N kv.2)).length = ks.length :=
      List.length_map _ _
    have hmem : ∀ a, a < ks.length → ks.getD a (0, []) ∈ ks := by
      intro a ha
      rw [List.getD_eq_getElem _ _ ha]
      exact List.getElem_mem ha
    refine ⟨?_, ?_, ?_⟩
    · intro g hg t ht
      rcases List.mem_map.mp hg with ⟨kv, hkv, hkvg⟩
      have hp := hspec.1 kv hkv
      have hrow : rowOf t.str ∈ M := List.mem_map_of_mem _ ht
      have hdot := hp.1 (rowOf t.str) hrow
      rw [dotV_rowOf t.str kv.2 N (hN t ht) hp.2.1] at hdot
      rw [← hkvg]
      exact (commutes_iff_symp _ _).mpr hdot
    · rw [hlen]
      have hb := kerLoop_length (2 * N) M (List.range (2 * N)) [] []
      rw [List.length_range, List.length_nil, Nat.zero_add] at hb
      exact hb
    · intro k hk S hS hkS heq
      rw [hlen] at hk
      have hS2 : ∀ j ∈ S, j < ks.length := by
        intro j hj
        rw [← hlen]
        exact hS j hj
      have hstr : ∀ a, a < ks.length →
          strFun ((ks.map (fun kv => pauliOfVec N kv.2)).getD a []) =
            asFun ((ks.getD a (0, [])).2) := by
        intro a ha
        have hga : (ks.map (fun kv => pauliOfVec N kv.2)).getD a [] =
            pauliOfVec N ((ks.getD a (0, [])).2) := by
          rw [List.getD_eq_getElem _ _ (by rw [hlen]; exact ha),
            List.getElem_map, List.getD_eq_getElem _ _ ha]
        rw [hga, strFun, vecOfString_pauliOfVec N _
          ((hspec.1 _ (hmem a ha)).2.1)]
      have heq2 : asFun ((ks.getD k (0, [])).2) =
          ∑ j in S, asFun ((ks.getD j (0, [])).2) := by
        rw [← hstr k hk, heq]
        exact Finset.sum_congr rfl (fun j hj => hstr j (hS2 j hj))
      exact triangular_independent ks
        (fun kv hkv => (hspec.1 kv hkv).2.2.2.1)
        (fun kv hkv => (hspec.1 kv hkv).2.2.2.2)
        hspec.2 k hk S hS2 hkS heq2

/-- Claim C5 amended-theorem witness: on the concrete operator with term
X-qubit0 the finder's first generator commutes with the term and the
generator count is within the 2N bound. -/
theorem find_Z2_symmetries_sound_witness :
    commutes [Pauli.X, Pauli.I]
      (⟨1, [Pauli.X, Pauli.I]⟩ : PauliTerm).str = true ∧
    (find_Z2_symmetries opXI).length ≤ 2 * opXI.numQubits := by
  have h := find_Z2_symmetries_sound opXI (by decide)
  exact ⟨h.1 [Pauli.X, Pauli.I] (by decide) ⟨1, [Pauli.X, Pauli.I]⟩
    (by decide), h.2.1⟩

end QT
